import Mathlib

/-!
Shallow embedding of the obsidian-cli vault scanner (src/main.rs).

Strings are modelled as lists of characters; file contents are read from a
vault snapshot.  The on-disk state visible to the program is captured by a
Vault value: a flag saying whether the walk of the root yields any entries at
all, and the list of markdown files the walk yields in traversal order, each
with its relative path and an optional content (none models a failed
read_to_string).  For a root that does not exist or cannot be opened, walkdir
produces a single error entry and filter_map(e.ok()) silently drops it, so
the walk yields nothing (flag clear).  A root that is an existing file is NOT
a failed walk: walkdir yields that one file as an Ok entry, so such a root is
modelled with the flag set and, when the file has the md extension, that file
as the single list entry (its path relative to the root being empty).

The Rust code iterates HashSet<String> in several places (find_note_path,
find_orphans).  That iteration order is not a function of the set's contents,
so it is passed in explicitly as a list (expected to be a permutation of the
note-path set) wherever the source iterates a HashSet.
-/

abbrev Str := List Char

/-- The double-quote character, written via its code point to keep source
lexing simple. -/
def dqc : Char := Char.ofNat 34

/-- The single-quote character. -/
def sqc : Char := Char.ofNat 39

/-- Rust str::trim - whitespace removed from both ends. -/
def trimStr (s : Str) : Str :=
  ((s.dropWhile Char.isWhitespace).reverse.dropWhile Char.isWhitespace).reverse

/-- Rust str::trim_matches with a char pattern: removes every leading and
every trailing occurrence of the char. -/
def trimMatches (q : Char) (s : Str) : Str :=
  ((s.dropWhile (· == q)).reverse.dropWhile (· == q)).reverse

/-- Rust str::split on a char: produces the pieces between separators
(n separators yield n+1 pieces, possibly empty). -/
def splitOnC (sep : Char) : Str → List Str
  | [] => [[]]
  | c :: cs =>
    let ps := splitOnC sep cs
    if c == sep then [] :: ps
    else
      match ps with
      | [] => [[c]]
      | p :: rest => (c :: p) :: rest

/-- Drop one trailing carriage return, as Rust str::lines does per line. -/
def stripCR (s : Str) : Str :=
  if s.getLast? = some (Char.ofNat 13) then s.dropLast else s

/-- Rust str::lines: split on newline, no final empty line for a trailing
newline, and a trailing carriage return removed from each line. -/
def rustLines (s : Str) : List Str :=
  match s with
  | [] => []
  | _ =>
    let ps := splitOnC '\n' s
    let ps := if s.getLast? = some '\n' then ps.dropLast else ps
    ps.map stripCR

/-- Rust str::find for a fixed pattern, returning the part of the haystack
before the first occurrence (None when the pattern does not occur). -/
def splitAtSub (pat : Str) : Str → Option Str
  | [] => none
  | c :: rest =>
    if pat.isPrefixOf (c :: rest) then some []
    else (splitAtSub pat rest).map (c :: ·)

/-- Whether pat occurs as a contiguous substring. -/
def hasSub (pat : Str) : Str → Bool
  | [] => pat.isEmpty
  | c :: rest => pat.isPrefixOf (c :: rest) || hasSub pat rest

/-- The inline-tag character class of the regex: [a-zA-Z0-9_ slash dash]. -/
def tagChar (c : Char) : Bool :=
  c.isAlphanum || c == '_' || c == '/' || c == '-'

/-- A tag is well formed when it is non-empty and drawn from the inline-tag
character class; this is the shape the specification promises for every tag. -/
def validTag (t : Str) : Bool :=
  !t.isEmpty && t.all tagChar

/-- Scanner for the inline-tag regex hash-tag regex (whitespace or start, a hash, then letters, digits, underscore, slash, dash) over the
text, with non-overlapping leftmost matches as captures_iter yields them.
The first argument holds the reversed characters of a candidate tag when the
scan sits right after a '#' that followed whitespace or the start of text;
the Bool records whether the previous character was whitespace (true at the
start of the text). -/
def inlineGo : Option Str → Bool → Str → List Str
  | none, _, [] => []
  | some acc, _, [] => if acc.isEmpty then [] else [acc.reverse]
  | none, ws, c :: cs =>
    if ws && c == '#' then inlineGo (some []) false cs
    else inlineGo none c.isWhitespace cs
  | some acc, _, c :: cs =>
    if tagChar c then inlineGo (some (c :: acc)) false cs
    else (if acc.isEmpty then [] else [acc.reverse]) ++ inlineGo none c.isWhitespace cs

/-- extract_frontmatter from src/main.rs: the text must start with a line
that is exactly three dashes, and the block ends at the first occurrence of
newline, three dashes, newline in the remainder. -/
def extract_frontmatter (content : Str) : Option Str :=
  if ("---\n".data).isPrefixOf content then
    splitAtSub ("\n---\n".data) (content.drop 4)
  else none

/-- Per-piece processing of a frontmatter tag value: trim, then strip all
surrounding double quotes, then all surrounding single quotes
(tag.trim().trim_matches of both quote kinds in the source). -/
def processPiece (p : Str) : Str :=
  trimMatches sqc (trimMatches dqc (trimStr p))

/-- The body of the tags: line handling in parse_frontmatter_tags, applied to
the already-trimmed text after the tags: key. -/
def tagsFromValue (tagsPart : Str) : List Str :=
  if tagsPart.head? = some '[' ∧ tagsPart.getLast? = some ']' then
    ((splitOnC ',' ((tagsPart.drop 1).dropLast)).map processPiece).filter
      (fun t => !t.isEmpty)
  else if !tagsPart.isEmpty then
    [trimMatches sqc (trimMatches dqc tagsPart)]
  else []

/-- parse_frontmatter_tags from src/main.rs.  Lines are trimmed; a line
starting with tags: contributes its value's tags; once any tag has been
collected, a line starting with dash-space contributes its (trimmed,
quote-stripped) remainder when non-empty.  None when no tag was found. -/
def parse_frontmatter_tags (frontmatter : Str) : Option (List Str) :=
  let tags := (rustLines frontmatter).foldl
    (fun acc line =>
      let l := trimStr line
      if ("tags:".data).isPrefixOf l then
        acc ++ tagsFromValue (trimStr (l.drop 5))
      else if ("- ".data).isPrefixOf l && !acc.isEmpty then
        let t := trimMatches sqc (trimMatches dqc (trimStr (l.drop 2)))
        if t.isEmpty then acc else acc ++ [t]
      else acc) []
  if tags.isEmpty then none else some tags

/-- The frontmatter contribution to a file's tags: nothing when there is no
frontmatter block or when it yields no tags. -/
def fmTags (content : Str) : List Str :=
  match extract_frontmatter content with
  | some fm => (parse_frontmatter_tags fm).getD []
  | none => []

/-- extract_tags_from_file from src/main.rs: inline tags in text order, then
the frontmatter tags. -/
def extract_tags_from_file (content : Str) : List Str :=
  inlineGo none true content ++ fmTags content

/-- Scanner for the wiki-link regex with the leftmost-match restart
behaviour of captures_iter: on a failed match attempt at a double open
bracket the search resumes one character later.  The fuel argument only
bounds the recursion; extract_links_from_file supplies enough for the whole
text. -/
def linksGo : Nat → Str → List Str
  | 0, _ => []
  | _ + 1, [] => []
  | fuel + 1, '[' :: '[' :: rest =>
    let tgt := rest.takeWhile (fun c => !(c == ']' || c == '|'))
    let r1 := rest.dropWhile (fun c => !(c == ']' || c == '|'))
    if tgt.isEmpty then linksGo fuel ('[' :: rest)
    else
      match r1 with
      | ']' :: ']' :: r2 => tgt :: linksGo fuel r2
      | '|' :: r2 =>
        match r2.dropWhile (fun c => !(c == ']')) with
        | ']' :: ']' :: r4 => tgt :: linksGo fuel r4
        | _ => linksGo fuel ('[' :: rest)
      | _ => linksGo fuel ('[' :: rest)
  | fuel + 1, _ :: rest => linksGo fuel rest

/-- extract_links_from_file from src/main.rs: the captured targets of
[[TARGET]] and [[TARGET|ALIAS]] in text order, aliases discarded. -/
def extract_links_from_file (content : Str) : List Str :=
  linksGo (content.length + 1) content

/-- normalize_path from src/main.rs (its vault-path parameter is unused in
the source): strip a trailing .md extension when present. -/
def normalize_path (notePath : Str) : Str :=
  if (".md".data).isSuffixOf notePath then notePath.take (notePath.length - 3)
  else notePath

/-- The per-candidate test of find_note_path: the normalized candidate equals
the normalized link, or ends with slash plus the normalized link. -/
def matchesNote (link note : Str) : Bool :=
  let ln := normalize_path link
  let nn := normalize_path note
  nn == ln || ('/' :: ln).isSuffixOf nn

/-- find_note_path from src/main.rs: first candidate, in the iteration order
of the all_notes hash set, whose normalized path matches the link. -/
def find_note_path (link : Str) (ord : List Str) : Option Str :=
  ord.find? (matchesNote link)

/-- One markdown file of the vault snapshot: relative path, optional content
(none models a failed read), and the formatted modification time the
platform reports. -/
structure MdFile where
  path : Str
  content : Option Str
  modified : Str := ("unknown".data)
deriving DecidableEq, Repr

/-- A vault snapshot: whether the walk of the root yields entries, and the
markdown files in traversal order. -/
structure Vault where
  rootOk : Bool
  files : List MdFile
deriving DecidableEq, Repr

/-- The file entries the walk yields: none at all when the root walk fails
(a nonexistent or unopenable root, whose single walkdir error entry is
dropped by filter_map(e.ok())).  A root that is an existing markdown file is
not a failed walk: it is modelled with rootOk set and that file as the
single entry. -/
def walkFiles (v : Vault) : List MdFile := if v.rootOk then v.files else []

/-- The all_notes hash set of collect_all_links as a set of paths (its first
pass inserts every markdown file's relative path without reading the file). -/
def allNotesList (v : Vault) : List Str :=
  ((walkFiles v).map MdFile.path).dedup

/-- One link record of collect_all_links: a resolved link stores the matched
note path with the flag set, an unresolved one stores the raw link text with
the flag clear.  linkExists models the Rust field named exists. -/
structure LinkInfo where
  source : Str
  target : Str
  linkExists : Bool
deriving DecidableEq, Repr

/-- The second-pass resolution step of collect_all_links for one link. -/
def resolveLink (ord : List Str) (src l : Str) : LinkInfo :=
  match find_note_path l ord with
  | some t => ⟨src, t, true⟩
  | none => ⟨src, l, false⟩

/-- The link list of collect_all_links' second pass: each readable file
contributes its extracted links, resolved against the note set; an
unreadable file contributes nothing. -/
def linksOf (ord : List Str) (v : Vault) : List LinkInfo :=
  ((walkFiles v).map (fun f =>
    match f.content with
    | some c => (extract_links_from_file c).map (resolveLink ord f.path)
    | none => [])).flatten

/-- collect_all_links from src/main.rs.  ord is the iteration order of the
all_notes hash set built in the first pass; the second pass reads each file,
skipping unreadable ones, and resolves its links against that set. -/
def collect_all_links (ord : List Str) (v : Vault) :
    Except String (List LinkInfo × List Str) :=
  .ok (linksOf ord v, allNotesList v)

/-- Ordered insertion into the sorted association list that models the
BTreeMap of collect_all_tags. -/
def insertTag (t : Str) : List (Str × Nat) → List (Str × Nat)
  | [] => [(t, 1)]
  | (k, c) :: rest =>
    if t = k then (k, c + 1) :: rest
    else if t < k then (t, 1) :: (k, c) :: rest
    else (k, c) :: insertTag t rest

/-- The tag-frequency table of collect_all_tags as a key-sorted association
list (the iteration order of the BTreeMap). -/
def tagsOf (v : Vault) : List (Str × Nat) :=
  (walkFiles v).foldl
    (fun m f =>
      match f.content with
      | some c => (extract_tags_from_file c).foldl (fun m t => insertTag t m) m
      | none => m) []

/-- collect_all_tags from src/main.rs: per-occurrence tag counts over every
readable markdown file, iterated in the key-sorted order of the BTreeMap. -/
def collect_all_tags (v : Vault) : Except String (List (Str × Nat)) :=
  .ok (tagsOf v)

/-- One row of collect_all_files. -/
structure FileInfo where
  path : Str
  word_count : Nat
  link_count : Nat
  tag_count : Nat
  modified : Str
deriving DecidableEq, Repr

/-- Rust split_whitespace().count(): the number of maximal non-whitespace
runs.  The Bool records whether the previous character was non-whitespace. -/
def wcGo : Bool → Str → Nat
  | _, [] => 0
  | inWord, c :: cs =>
    if c.isWhitespace then wcGo false cs
    else (if inWord then 0 else 1) + wcGo true cs

/-- collect_all_files from src/main.rs: metadata for every readable markdown
file in traversal order. -/
def collect_all_files (v : Vault) : Except String (List FileInfo) :=
  .ok ((walkFiles v).filterMap (fun f =>
    match f.content with
    | some c =>
      some ⟨f.path, wcGo false c, (extract_links_from_file c).length,
        (extract_tags_from_file c).length, f.modified⟩
    | none => none))

/-- The orphan list: notes, in the hash set's iteration order, that are the
source of no link at all and the target of no resolved link.  The
has_outgoing set receives every link's source, resolved or not; the
has_incoming set only receives targets of links whose flag is set. -/
def orphansOf (ord : List Str) (v : Vault) : List Str :=
  ord.filter (fun note =>
    !((linksOf ord v).any (fun l => l.source == note)) &&
    !((linksOf ord v).any (fun l => l.linkExists && l.target == note)))

/-- find_orphans from src/main.rs. -/
def find_orphans (ord : List Str) (v : Vault) : Except String (List Str) :=
  match collect_all_links ord v with
  | .error e => .error e
  | .ok (links, _allNotes) =>
    .ok (ord.filter (fun note =>
      !(links.any (fun l => l.source == note)) &&
      !(links.any (fun l => l.linkExists && l.target == note))))

/-- find_notes_with_tag from src/main.rs: readable markdown files whose
extracted tag list contains an exact match. -/
def find_notes_with_tag (v : Vault) (targetTag : Str) : Except String (List Str) :=
  .ok ((walkFiles v).filterMap (fun f =>
    match f.content with
    | some c =>
      if (extract_tags_from_file c).any (fun t => t == targetTag) then some f.path
      else none
    | none => none))

/-- The symmetric target test of find_backlinks, on normalized strings. -/
def backMatches (targetNormalized ltn : Str) : Bool :=
  ltn == targetNormalized ||
  ('/' :: targetNormalized).isSuffixOf ltn ||
  ('/' :: ltn).isSuffixOf targetNormalized

/-- Rust Vec::dedup: collapse runs of consecutive equal elements to one. -/
def dedupConsec : List Str → List Str
  | [] => []
  | [a] => [a]
  | a :: b :: rest =>
    if a = b then dedupConsec (b :: rest) else a :: dedupConsec (b :: rest)

/-- The backlink list: the sources of every link whose target matches the
query under the symmetric normalized-suffix test, sorted and with
consecutive duplicates collapsed. -/
def backlinksOf (ord : List Str) (targetFile : Str) (v : Vault) : List Str :=
  dedupConsec (List.insertionSort (· ≤ ·)
    (((linksOf ord v).filter
      (fun l => backMatches (normalize_path targetFile) (normalize_path l.target))).map
      LinkInfo.source))

/-- find_backlinks from src/main.rs. -/
def find_backlinks (ord : List Str) (targetFile : Str) (v : Vault) :
    Except String (List Str) :=
  match collect_all_links ord v with
  | .error e => .error e
  | .ok (links, _) =>
    let tn := normalize_path targetFile
    .ok (dedupConsec (List.insertionSort (· ≤ ·)
      ((links.filter (fun l => backMatches tn (normalize_path l.target))).map
        LinkInfo.source)))

/-- The stats record of calculate_stats. -/
structure StatsOutput where
  total_notes : Nat
  total_tags : Nat
  total_links : Nat
  broken_links : Nat
  orphaned_notes : Nat
deriving DecidableEq, Repr

/-- The stats record calculate_stats assembles. -/
def statsOf (ord1 ord2 : List Str) (v : Vault) : StatsOutput :=
  ⟨(allNotesList v).length, (tagsOf v).length, (linksOf ord1 v).length,
    ((linksOf ord1 v).filter (fun l => !l.linkExists)).length,
    (orphansOf ord2 v).length⟩

/-- calculate_stats from src/main.rs.  It runs collect_all_links twice (once
directly, once inside find_orphans); each run builds its own hash set, so the
two iteration orders ord1 and ord2 are independent. -/
def calculate_stats (ord1 ord2 : List Str) (v : Vault) : Except String StatsOutput :=
  match collect_all_tags v, collect_all_links ord1 v, find_orphans ord2 v with
  | .ok tagCounts, .ok (links, allNotes), .ok orphans =>
    .ok ⟨allNotes.length, tagCounts.length, links.length,
      (links.filter (fun l => !l.linkExists)).length, orphans.length⟩
  | .error e, _, _ => .error e
  | _, .error e, _ => .error e
  | _, _, .error e => .error e

/-! ### Shape of the collection functions

Every collection function constructs only the Ok branch of its result type:
the walkdir errors are dropped before they can be observed, so the String
error channel of the Rust signatures is never used. -/

theorem collect_all_links_eq (ord : List Str) (v : Vault) :
    collect_all_links ord v = .ok (linksOf ord v, allNotesList v) := rfl

theorem collect_all_tags_eq (v : Vault) :
    collect_all_tags v = .ok (tagsOf v) := rfl

theorem find_orphans_eq (ord : List Str) (v : Vault) :
    find_orphans ord v = .ok (orphansOf ord v) := rfl

theorem find_backlinks_eq (ord : List Str) (targetFile : Str) (v : Vault) :
    find_backlinks ord targetFile v = .ok (backlinksOf ord targetFile v) := rfl

theorem calculate_stats_eq (ord1 ord2 : List Str) (v : Vault) :
    calculate_stats ord1 ord2 v = .ok (statsOf ord1 ord2 v) := rfl

/-! ### Example vault snapshots used by the concrete theorems -/

/-- A vault whose root walk fails (the root does not exist or cannot be
opened, so walkdir's only entry is an error that filter_map drops). -/
def badRootVault : Vault := ⟨false, []⟩

/-- A vault whose root path is itself an existing markdown file: walkdir
yields exactly that file as an Ok entry, with an empty path relative to the
root. -/
def fileRootVault : Vault :=
  ⟨true, [⟨("".data), some ("#t".data), ("unknown".data)⟩]⟩

/-- A note with a single dangling link plus an isolated note. -/
def exVaultDangling : Vault :=
  ⟨true, [⟨("A.md".data), some ("[[Nothing]]".data), ("unknown".data)⟩,
          ⟨("C.md".data), some ("".data), ("unknown".data)⟩]⟩

/-- An unreadable note and a readable note linking to it. -/
def exVaultUnread : Vault :=
  ⟨true, [⟨("A.md".data), none, ("unknown".data)⟩,
          ⟨("B.md".data), some ("[[A]]".data), ("unknown".data)⟩]⟩

/-- A vault holding just one unreadable note. -/
def exVaultOnlyUnread : Vault :=
  ⟨true, [⟨("A.md".data), none, ("unknown".data)⟩]⟩

/-- Two isolated notes, for the iteration-order experiments. -/
def exVaultTwo : Vault :=
  ⟨true, [⟨("A.md".data), some ("".data), ("unknown".data)⟩,
          ⟨("C.md".data), some ("".data), ("unknown".data)⟩]⟩

/-- C3.  The claim reads: for every root path that does not exist or is not a
directory, every collection function returns an operation-level failure.  It
is refuted on the embedded code at the nonexistent-root instance: the walk
yields nothing (walkdir's single error entry is discarded by
filter_map(e.ok())), no function ever constructs the Err branch, and every
collection function returns a successful empty result. -/
theorem C3_counterexample :
    badRootVault.rootOk = false ∧
    collect_all_tags badRootVault = .ok [] ∧
    collect_all_files badRootVault = .ok [] ∧
    collect_all_links [] badRootVault = .ok ([], []) ∧
    find_orphans [] badRootVault = .ok [] ∧
    find_notes_with_tag badRootVault ("x".data) = .ok [] ∧
    find_backlinks [] ("x".data) badRootVault = .ok [] ∧
    calculate_stats [] [] badRootVault = .ok ⟨0, 0, 0, 0, 0⟩ :=
  ⟨rfl, rfl, rfl, rfl, rfl, rfl, rfl, rfl⟩

/-- C3 (amended).  No collection function ever constructs the Err branch of
its result type, for any root.  When the root walk fails - the root does not
exist or cannot be opened, so the walk yields no entries - every collection
function returns Ok with an empty result rather than an operation-level
failure (the hash-set iteration orders are then necessarily empty).  This
Ok-empty behaviour is specific to failed walks, not to all non-directory
roots: a root that is itself an existing markdown file is walked as that one
file and yields its non-empty data, e.g. one total note. -/
theorem C3_amended (v : Vault) (ord1 ord2 : List Str) (tag tgt : Str)
    (hroot : v.rootOk = false)
    (h1 : ord1.Perm (allNotesList v)) (h2 : ord2.Perm (allNotesList v)) :
    (∀ (w : Vault) (o1 o2 : List Str),
      (∃ x, collect_all_tags w = .ok x) ∧
      (∃ x, collect_all_files w = .ok x) ∧
      (∃ x, collect_all_links o1 w = .ok x) ∧
      (∃ x, find_orphans o1 w = .ok x) ∧
      (∃ x, find_notes_with_tag w tag = .ok x) ∧
      (∃ x, find_backlinks o1 tgt w = .ok x) ∧
      (∃ x, calculate_stats o1 o2 w = .ok x)) ∧
    (collect_all_tags v = .ok [] ∧
     collect_all_files v = .ok [] ∧
     collect_all_links ord1 v = .ok ([], []) ∧
     find_orphans ord2 v = .ok [] ∧
     find_notes_with_tag v tag = .ok [] ∧
     find_backlinks ord1 tgt v = .ok [] ∧
     calculate_stats ord1 ord2 v = .ok ⟨0, 0, 0, 0, 0⟩) ∧
    calculate_stats (allNotesList fileRootVault) (allNotesList fileRootVault)
      fileRootVault = .ok ⟨1, 1, 0, 0, 1⟩ := by
  refine ⟨?_, ?_, rfl⟩
  · intro w o1 o2
    exact ⟨⟨_, collect_all_tags_eq w⟩, ⟨_, rfl⟩,
      ⟨_, collect_all_links_eq o1 w⟩, ⟨_, find_orphans_eq o1 w⟩,
      ⟨_, rfl⟩, ⟨_, find_backlinks_eq o1 tgt w⟩,
      ⟨_, calculate_stats_eq o1 o2 w⟩⟩
  · have hw : walkFiles v = [] := by simp [walkFiles, hroot]
    have hn : allNotesList v = [] := by simp [allNotesList, hw]
    rw [hn] at h1 h2
    have e1 : ord1 = [] := h1.eq_nil
    have e2 : ord2 = [] := h2.eq_nil
    subst e1; subst e2
    refine ⟨?_, ?_, ?_, ?_, ?_, ?_, ?_⟩ <;>
      simp [collect_all_tags, tagsOf, collect_all_files, collect_all_links,
        linksOf, allNotesList, find_orphans, find_notes_with_tag,
        find_backlinks, calculate_stats, orphansOf, hw, hn, dedupConsec,
        List.insertionSort]

/-- C3 witness: the amended theorem applied to the concrete failed-walk
vault. -/
theorem C3_witness :
    badRootVault.rootOk = false ∧
    calculate_stats [] [] badRootVault = .ok ⟨0, 0, 0, 0, 0⟩ :=
  ⟨rfl, (C3_amended badRootVault [] [] ("x".data) ("x".data) rfl
    (by decide) (by decide)).2.1.2.2.2.2.2.2⟩

/-- C4.  The claim reads: running any collection function twice on a fixed
vault yields identical structured results, including identical element order
of find_orphans' result.  It is refuted on the embedded code: find_orphans
emits the orphans in the iteration order of the all_notes hash set, which is
not a function of the vault snapshot; two runs whose hash sets iterate in
different orders produce differently ordered orphan lists for the very same
vault. -/
theorem C4_counterexample :
    (["A.md".data, "C.md".data] : List Str).Perm (allNotesList exVaultTwo) ∧
    (["C.md".data, "A.md".data] : List Str).Perm (allNotesList exVaultTwo) ∧
    find_orphans (["A.md".data, "C.md".data]) exVaultTwo =
      .ok (["A.md".data, "C.md".data]) ∧
    find_orphans (["C.md".data, "A.md".data]) exVaultTwo =
      .ok (["C.md".data, "A.md".data]) ∧
    find_orphans (["A.md".data, "C.md".data]) exVaultTwo ≠
      find_orphans (["C.md".data, "A.md".data]) exVaultTwo := by
  refine ⟨by decide, by decide, rfl, rfl, ?_⟩
  intro h
  rw [show find_orphans (["A.md".data, "C.md".data]) exVaultTwo =
        .ok (["A.md".data, "C.md".data]) from rfl,
      show find_orphans (["C.md".data, "A.md".data]) exVaultTwo =
        .ok (["C.md".data, "A.md".data]) from rfl] at h
  exact absurd (Except.ok.inj h) (by decide)

/-- C4 (amended).  Each collection function is a deterministic pure function
of the vault snapshot together with the hash-set iteration orders: two runs
agree whenever their iteration orders agree (collect_all_tags,
collect_all_files and find_notes_with_tag take no order at all); only the
order-sensitive functions can differ across runs, as the counterexample
shows. -/
theorem C4_amended (v : Vault) (ord ord' : List Str) (tag tgt : Str)
    (h : ord = ord') :
    collect_all_tags v = collect_all_tags v ∧
    collect_all_files v = collect_all_files v ∧
    collect_all_links ord v = collect_all_links ord' v ∧
    find_orphans ord v = find_orphans ord' v ∧
    find_notes_with_tag v tag = find_notes_with_tag v tag ∧
    find_backlinks ord tgt v = find_backlinks ord' tgt v ∧
    calculate_stats ord ord v = calculate_stats ord' ord' v := by
  subst h
  exact ⟨rfl, rfl, rfl, rfl, rfl, rfl, rfl⟩

/-- C4 witness: two runs of find_orphans with the same iteration order on the
two-note vault agree. -/
theorem C4_witness :
    find_orphans (["A.md".data, "C.md".data]) exVaultTwo =
      find_orphans (["A.md".data, "C.md".data]) exVaultTwo :=
  (C4_amended exVaultTwo (["A.md".data, "C.md".data])
    (["A.md".data, "C.md".data]) ("x".data) ("x".data) rfl).2.2.2.1

/-! ### Link provenance -/

theorem resolveLink_source (ord : List Str) (src raw : Str) :
    (resolveLink ord src raw).source = src := by
  unfold resolveLink
  cases find_note_path raw ord <;> rfl

/-- Every emitted link comes from a readable file, whose path is its source. -/
theorem linksOf_source (ord : List Str) (v : Vault) (l : LinkInfo)
    (hl : l ∈ linksOf ord v) :
    ∃ g ∈ walkFiles v, ∃ c, g.content = some c ∧ l.source = g.path := by
  unfold linksOf at hl
  rw [List.mem_flatten] at hl
  obtain ⟨s, hs, hls⟩ := hl
  rw [List.mem_map] at hs
  obtain ⟨g, hg, rfl⟩ := hs
  cases hc : g.content with
  | none => rw [hc] at hls; simp at hls
  | some c =>
    rw [hc] at hls
    rw [List.mem_map] at hls
    obtain ⟨raw, _hraw, rfl⟩ := hls
    exact ⟨g, hg, c, hc, resolveLink_source ord g.path raw⟩

/-- C1.  The claim reads: a note whose only outgoing links are unresolved,
and to which no link successfully resolves, is an orphan.  It is refuted on
the embedded code: in exVaultDangling the note A.md has exactly one link,
which is unresolved, and no link resolves to it, yet find_orphans omits it,
because the has_outgoing set receives every link source whether or not the
link resolved. -/
theorem C1_counterexample :
    collect_all_links (allNotesList exVaultDangling) exVaultDangling =
      .ok ([⟨("A.md".data), ("Nothing".data), false⟩],
        [("A.md".data), ("C.md".data)]) ∧
    find_orphans (allNotesList exVaultDangling) exVaultDangling =
      .ok [("C.md".data)] ∧
    ("A.md".data) ∉ [("C.md".data)] :=
  ⟨rfl, rfl, by decide⟩

/-- C1 (amended).  A note that is the source of any link at all, resolved or
unresolved, is never an orphan; a note in the vault that is the source of no
link and the resolved target of no link is an orphan - being the unresolved
target of a dangling link still does not count as having incoming links,
because only links whose flag is set feed the has_incoming set. -/
theorem C1_amended (v : Vault) (ord : List Str) (hord : ord.Perm (allNotesList v))
    (n : Str) (links : List LinkInfo) (notes os : List Str)
    (hcl : collect_all_links ord v = .ok (links, notes))
    (ho : find_orphans ord v = .ok os) :
    ((∃ l ∈ links, l.source = n) → n ∉ os) ∧
    (n ∈ notes → (∀ l ∈ links, l.source ≠ n) →
      (∀ l ∈ links, l.linkExists = true → l.target ≠ n) → n ∈ os) := by
  rw [collect_all_links_eq] at hcl
  rw [find_orphans_eq] at ho
  injection hcl with h1
  injection h1 with hl hn
  subst hl; subst hn
  injection ho with h2
  subst h2
  constructor
  · rintro ⟨l, hml, hsrc⟩ hmem
    rw [orphansOf, List.mem_filter] at hmem
    have hp := hmem.2
    simp only [Bool.and_eq_true, Bool.not_eq_true'] at hp
    have h1 : (linksOf ord v).any (fun l => l.source == n) = true :=
      List.any_eq_true.mpr ⟨l, hml, by rw [hsrc]; exact beq_self_eq_true n⟩
    rw [hp.1] at h1
    exact Bool.noConfusion h1
  · intro hmem hsrc htgt
    rw [orphansOf, List.mem_filter]
    refine ⟨hord.mem_iff.mpr hmem, ?_⟩
    simp only [Bool.and_eq_true, Bool.not_eq_true']
    constructor
    · rw [Bool.eq_false_iff]
      intro hany
      obtain ⟨l, hml, hbeq⟩ := List.any_eq_true.mp hany
      exact hsrc l hml (beq_iff_eq.mp hbeq)
    · rw [Bool.eq_false_iff]
      intro hany
      obtain ⟨l, hml, hbeq⟩ := List.any_eq_true.mp hany
      rw [Bool.and_eq_true] at hbeq
      exact htgt l hml hbeq.1 (beq_iff_eq.mp hbeq.2)

/-- C1 witness: in the dangling-link vault, the isolated note C.md is
reported as an orphan by the amended theorem. -/
theorem C1_witness : ("C.md".data) ∈ [("C.md".data)] :=
  (C1_amended exVaultDangling (allNotesList exVaultDangling) (by decide)
    ("C.md".data) [⟨("A.md".data), ("Nothing".data), false⟩]
    [("A.md".data), ("C.md".data)] [("C.md".data)] rfl rfl).2
    (by decide) (by decide) (by decide)

/-- C2.  The claim reads: a markdown file whose read fails is excluded from
all derived data - the note set, total_notes, resolved targets and the
orphan list.  It is refuted on the embedded code: the first pass of
collect_all_links records every markdown path without reading the file, so
in exVaultUnread the unreadable A.md is in the note set, is counted in
total_notes, and is the resolved target of B.md's link; in
exVaultOnlyUnread the unreadable note is even reported as an orphan. -/
theorem C2_counterexample :
    collect_all_links (allNotesList exVaultUnread) exVaultUnread =
      .ok ([⟨("B.md".data), ("A.md".data), true⟩],
        [("A.md".data), ("B.md".data)]) ∧
    ("A.md".data) ∈ [("A.md".data), ("B.md".data)] ∧
    calculate_stats (allNotesList exVaultUnread) (allNotesList exVaultUnread)
      exVaultUnread = .ok ⟨2, 0, 1, 0, 0⟩ ∧
    find_orphans (allNotesList exVaultOnlyUnread) exVaultOnlyUnread =
      .ok [("A.md".data)] :=
  ⟨rfl, by decide, rfl, rfl⟩

/-- C2 (amended).  An unreadable markdown file contributes no links (it is
never a link source), yet it does appear in the note set of
collect_all_links and is counted in total_notes, because the first pass
indexes paths without reading file contents. -/
theorem C2_amended (v : Vault) (ord : List Str) (f : MdFile)
    (hf : f ∈ walkFiles v) (hnone : f.content = none)
    (hnd : ((walkFiles v).map MdFile.path).Nodup)
    (links : List LinkInfo) (notes : List Str)
    (hcl : collect_all_links ord v = .ok (links, notes)) :
    f.path ∈ notes ∧
    (∀ l ∈ links, l.source ≠ f.path) ∧
    (∀ ord2 st, calculate_stats ord ord2 v = .ok st →
      st.total_notes = notes.length) := by
  rw [collect_all_links_eq] at hcl
  injection hcl with h1
  injection h1 with hl hn
  subst hl; subst hn
  refine ⟨?_, ?_, ?_⟩
  · exact List.mem_dedup.mpr (List.mem_map_of_mem MdFile.path hf)
  · intro l hml hEq
    obtain ⟨g, hg, c, hc, hsrc⟩ := linksOf_source ord v l hml
    have hgf : g = f :=
      List.inj_on_of_nodup_map hnd hg hf (by rw [← hsrc, hEq])
    rw [hgf, hnone] at hc
    exact Option.noConfusion hc
  · intro ord2 st hst
    rw [calculate_stats_eq] at hst
    injection hst with h2
    subst h2
    rfl

/-- C2 witness: the amended theorem applied to the unreadable note A.md of
exVaultUnread. -/
theorem C2_witness :
    ("A.md".data) ∈ [("A.md".data), ("B.md".data)] ∧
    (∀ l ∈ [(⟨("B.md".data), ("A.md".data), true⟩ : LinkInfo)],
      l.source ≠ ("A.md".data)) :=
  have h := C2_amended exVaultUnread (allNotesList exVaultUnread)
    ⟨("A.md".data), none, ("unknown".data)⟩ (by decide) rfl (by decide)
    [⟨("B.md".data), ("A.md".data), true⟩] [("A.md".data), ("B.md".data)] rfl
  ⟨h.1, h.2.1⟩

/-! ### Soundness of the inline-tag scanner -/

/-- Every tag the inline scanner emits is a non-empty run of tag-class
characters, provided the pending accumulator (if any) holds only tag-class
characters. -/
theorem inlineGo_sound : ∀ (cs : Str) (st : Option Str) (ws : Bool),
    (∀ acc, st = some acc → ∀ c ∈ acc, tagChar c = true) →
    ∀ t ∈ inlineGo st ws cs, validTag t = true := by
  intro cs
  induction cs with
  | nil =>
    intro st ws hinv t ht
    cases st with
    | none => simp [inlineGo] at ht
    | some acc =>
      simp only [inlineGo] at ht
      by_cases hacc : acc.isEmpty
      · rw [if_pos hacc] at ht
        exact absurd ht (List.not_mem_nil t)
      · rw [if_neg hacc] at ht
        rcases List.mem_singleton.mp ht with rfl
        rw [validTag, Bool.and_eq_true]
        constructor
        · rw [List.isEmpty_iff] at hacc
          simp [List.isEmpty_iff, hacc]
        · rw [List.all_eq_true]
          intro c hc
          exact hinv acc rfl c (List.mem_reverse.mp hc)
  | cons c cs ih =>
    intro st ws hinv t ht
    cases st with
    | none =>
      simp only [inlineGo] at ht
      split at ht
      · refine ih (some []) false ?_ t ht
        intro acc h x hx
        cases h
        exact absurd hx (List.not_mem_nil x)
      · exact ih none c.isWhitespace (fun acc h => Option.noConfusion h) t ht
    | some acc =>
      simp only [inlineGo] at ht
      split at ht
      case isTrue htc =>
        refine ih (some (c :: acc)) false ?_ t ht
        intro acc' h x hx
        cases h
        rcases List.mem_cons.mp hx with rfl | hx'
        · exact htc
        · exact hinv acc rfl x hx'
      case isFalse =>
        rw [List.mem_append] at ht
        rcases ht with hemit | hrest
        · by_cases hacc : acc.isEmpty
          · rw [if_pos hacc] at hemit
            exact absurd hemit (List.not_mem_nil t)
          · rw [if_neg hacc] at hemit
            rcases List.mem_singleton.mp hemit with rfl
            rw [validTag, Bool.and_eq_true]
            constructor
            · rw [List.isEmpty_iff] at hacc
              simp [List.isEmpty_iff, hacc]
            · rw [List.all_eq_true]
              intro x hx
              exact hinv acc rfl x (List.mem_reverse.mp hx)
        · exact ih none c.isWhitespace (fun acc h => Option.noConfusion h) t hrest

/-- C5.  The claim reads: every tag produced by the tag extractor, inline or
frontmatter, is a non-empty string over alphanumerics, underscore, hyphen
and slash.  It is refuted on the embedded code: frontmatter tag values are
only trimmed and quote-stripped, so a value with a space yields the tag
"a b", and a quoted empty value yields the empty tag. -/
theorem C5_counterexample :
    extract_tags_from_file ("---\ntags: a b\n---\n".data) = [("a b".data)] ∧
    validTag ("a b".data) = false ∧
    extract_tags_from_file ("---\ntags: \"\"\n---\n".data) = [[]] ∧
    validTag [] = false :=
  ⟨rfl, by decide, rfl, by decide⟩

/-- C5 (amended).  Every inline tag - every extracted tag that does not come
from the frontmatter block - is a non-empty string over alphanumerics,
underscore, hyphen and slash; frontmatter-derived tags carry no such
guarantee. -/
theorem C5_amended (content t : Str) (ht : t ∈ extract_tags_from_file content)
    (hfm : t ∉ fmTags content) : validTag t = true := by
  rw [extract_tags_from_file, List.mem_append] at ht
  rcases ht with h | h
  · exact inlineGo_sound content none true
      (fun acc h => Option.noConfusion h) t h
  · exact absurd h hfm

/-- C5 witness: the inline tag ok of a concrete note is valid. -/
theorem C5_witness :
    (("ok".data) ∈ extract_tags_from_file ("#ok x".data)) ∧
    validTag ("ok".data) = true :=
  ⟨by decide, C5_amended ("#ok x".data) ("ok".data) (by decide) (by decide)⟩

/-- Modelled from the spec: stripping exactly one pair of surrounding quote
characters from a piece, as the specification's inline-array rule words it
(the quotes are removed only as a single surrounding pair, never more). -/
def stripOnePair (q : Char) (s : Str) : Str :=
  if 2 ≤ s.length ∧ s.head? = some q ∧ s.getLast? = some q then
    (s.drop 1).dropLast
  else s

/-- C6.  The claim reads: each comma piece of an inline array has exactly a
single pair of surrounding quotes stripped, not more than one pair.  It is
refuted on the embedded code: trim_matches removes every leading and
trailing quote character, so the piece with doubled quotes around the letter
a yields the bare tag a, where stripping a single pair would leave one pair
of quotes in place. -/
theorem C6_counterexample :
    parse_frontmatter_tags ("tags: [\"\"a\"\"]".data) = some [("a".data)] ∧
    trimMatches dqc ("\"\"a\"\"".data) = ("a".data) ∧
    stripOnePair dqc ("\"\"a\"\"".data) = ("\"a\"".data) ∧
    ("a".data) ≠ ("\"a\"".data) :=
  ⟨rfl, rfl, by decide, by decide⟩

/-- C6 (amended).  For an inline-array value the inner content is split on
commas and each piece is trimmed and then stripped of all surrounding
double-quote characters and then all surrounding single-quote characters
(not just one pair), empty pieces being discarded; the concrete examples
with three tags and with a single bare tag behave as the claim states. -/
theorem C6_amended (inner : Str) :
    tagsFromValue ('[' :: (inner ++ [']'])) =
      ((splitOnC ',' inner).map processPiece).filter (fun t => !t.isEmpty) ∧
    parse_frontmatter_tags ("tags: [a, b, \"c\"]".data) =
      some [("a".data), ("b".data), ("c".data)] ∧
    parse_frontmatter_tags ("tags: solo".data) = some [("solo".data)] := by
  refine ⟨?_, rfl, rfl⟩
  have hcond : ('[' :: (inner ++ [']'])).head? = some '[' ∧
      ('[' :: (inner ++ [']'])).getLast? = some ']' := by
    refine ⟨rfl, ?_⟩
    rw [show ('[' :: (inner ++ [']'])) = ('[' :: inner) ++ [']'] from by simp]
    exact List.getLast?_concat _
  rw [tagsFromValue, if_pos hcond]
  have h1 : (('[' :: (inner ++ [']'])).drop 1).dropLast = inner := by simp
  rw [h1]

/-! ### Exact frontmatter extraction -/

/-- When the pattern (written as its first characters plus its last one) has
no occurrence before the marked one, the find of extract_frontmatter returns
exactly the text before that occurrence. -/
theorem splitAtSub_exact (pinit : Str) (plast : Char) :
    ∀ (a b : Str), hasSub (pinit ++ [plast]) (a ++ pinit) = false →
      splitAtSub (pinit ++ [plast]) (a ++ ((pinit ++ [plast]) ++ b)) = some a := by
  intro a
  induction a with
  | nil =>
    intro b _h
    rw [List.nil_append]
    cases hp : pinit ++ [plast] with
    | nil => exact absurd hp (by simp)
    | cons q qt =>
      rw [List.cons_append]
      simp only [splitAtSub]
      rw [if_pos]
      rw [List.isPrefixOf_iff_prefix, ← List.cons_append]
      exact List.prefix_append _ _
  | cons x a' ih =>
    intro b h
    rw [List.cons_append] at h
    simp only [hasSub, Bool.or_eq_false_iff] at h
    rw [List.cons_append]
    simp only [splitAtSub]
    have hnp : ¬ ((pinit ++ [plast]).isPrefixOf
        (x :: (a' ++ ((pinit ++ [plast]) ++ b))) = true) := by
      intro hpre
      rw [List.isPrefixOf_iff_prefix] at hpre
      have hw : x :: (a' ++ ((pinit ++ [plast]) ++ b)) =
          ((x :: a') ++ pinit) ++ (plast :: b) := by simp
      rw [hw] at hpre
      have hlen : (pinit ++ [plast]).length ≤ ((x :: a') ++ pinit).length := by
        simp
      have hp2 : (pinit ++ [plast]) <+: ((x :: a') ++ pinit) :=
        List.prefix_of_prefix_length_le hpre (List.prefix_append _ _) hlen
      have hP : (pinit ++ [plast]).isPrefixOf (x :: (a' ++ pinit)) = true := by
        rw [List.isPrefixOf_iff_prefix, ← List.cons_append]
        exact hp2
      rw [h.1] at hP
      exact Bool.noConfusion hP
    rw [if_neg hnp, ih b h.2]
    rfl

/-- C7.  The claim reads: whenever the first line is exactly three dashes
and some later line is exactly three dashes, the text between them is the
frontmatter block, regardless of whether the closing delimiter is followed
by further text or a trailing newline.  It is refuted on the embedded code:
a note whose closing three-dash line ends the file without a trailing
newline has its delimiter lines intact, yet no frontmatter is recognized
(the find requires newline, three dashes, newline) and no tags are
extracted. -/
theorem C7_counterexample :
    rustLines ("---\ntags: x\n---".data) =
      [("---".data), ("tags: x".data), ("---".data)] ∧
    extract_frontmatter ("---\ntags: x\n---".data) = none ∧
    extract_tags_from_file ("---\ntags: x\n---".data) = [] :=
  ⟨rfl, rfl, rfl⟩

/-- C7 (amended).  When the text is the opening three-dash line, a block,
then a three-dash line followed by a newline (with no earlier occurrence of
the delimiter pattern), the block is the frontmatter - whether or not text
follows the closing delimiter; a closing delimiter at end of file without a
trailing newline is not recognized, as the counterexample shows.  The tags:
declarations of the recognized block feed the extracted tag list. -/
theorem C7_amended (fm rest : Str)
    (h : hasSub ("\n---\n".data) (fm ++ ("\n---".data)) = false) :
    extract_frontmatter (("---\n".data) ++ fm ++ ("\n---\n".data) ++ rest) =
      some fm ∧
    extract_tags_from_file (("---\n".data) ++ fm ++ ("\n---\n".data) ++ rest) =
      inlineGo none true (("---\n".data) ++ fm ++ ("\n---\n".data) ++ rest) ++
        (parse_frontmatter_tags fm).getD [] := by
  have hw : (("---\n".data) ++ fm ++ ("\n---\n".data) ++ rest) =
      ("---\n".data) ++ (fm ++ (("\n---\n".data) ++ rest)) := by simp
  have hfm : extract_frontmatter
      (("---\n".data) ++ fm ++ ("\n---\n".data) ++ rest) = some fm := by
    rw [extract_frontmatter, hw, if_pos]
    · have hdrop : ((("---\n".data) ++ (fm ++ (("\n---\n".data) ++ rest)))).drop 4 =
          fm ++ (("\n---\n".data) ++ rest) :=
        List.drop_left' (by rfl)
      rw [hdrop]
      have hpat : ("\n---\n".data) = ("\n---".data) ++ ['\n'] := rfl
      rw [hpat]
      have h' := h
      rw [hpat] at h'
      exact splitAtSub_exact ("\n---".data) '\n' fm rest h'
    · rw [List.isPrefixOf_iff_prefix]
      exact List.prefix_append _ _
  refine ⟨hfm, ?_⟩
  simp only [extract_tags_from_file, fmTags, hfm]

/-- C7 witness: a concrete note with frontmatter, a closing delimiter and a
trailing body, fed to the amended theorem. -/
theorem C7_witness :
    hasSub ("\n---\n".data) (("tags: x".data) ++ ("\n---".data)) = false ∧
    extract_frontmatter
      (("---\n".data) ++ ("tags: x".data) ++ ("\n---\n".data) ++ ("body".data)) =
      some ("tags: x".data) :=
  ⟨by decide, (C7_amended ("tags: x".data) ("body".data) (by decide)).1⟩

/-- Any note matching a partial-path link also matches the bare-name link
formed by its last segment, for the concrete folder example. -/
theorem matchesNote_folder_imp (n : Str)
    (hn : matchesNote ("folder/Note".data) n = true) :
    matchesNote ("Note".data) n = true := by
  simp only [matchesNote] at hn ⊢
  rw [show normalize_path ("folder/Note".data) = ("folder/Note".data) from rfl] at hn
  rw [show normalize_path ("Note".data) = ("Note".data) from rfl]
  rw [Bool.or_eq_true] at hn ⊢
  rcases hn with hA | hB
  · rw [beq_iff_eq] at hA
    rw [hA]
    right
    decide
  · right
    rw [List.isSuffixOf_iff_suffix] at hB ⊢
    exact List.IsSuffix.trans
      (by decide : ('/' :: ("Note".data)) <:+ ('/' :: ("folder/Note".data))) hB

/-- C8.  Link resolution is extension-insensitive and suffix-matching: a
resolved link returns a member of the note set verbatim (hence with its
original .md extension) that matches the link; the bare name Note and the
partial path folder/Note both match folder/Note.md, and when that is the
only matching candidate both links resolve to it; an unresolved link is
reported with its raw text and a cleared flag. -/
theorem C8_resolution (ord : List Str) (link : Str) :
    (∀ m, find_note_path link ord = some m →
      m ∈ ord ∧ matchesNote link m = true) ∧
    (∀ src, find_note_path link ord = none →
      resolveLink ord src link = ⟨src, link, false⟩) ∧
    matchesNote ("Note".data) ("folder/Note.md".data) = true ∧
    matchesNote ("folder/Note".data) ("folder/Note.md".data) = true ∧
    (("folder/Note.md".data) ∈ ord →
      (∀ n ∈ ord, matchesNote ("Note".data) n = true →
        n = ("folder/Note.md".data)) →
      find_note_path ("Note".data) ord = some ("folder/Note.md".data) ∧
      find_note_path ("folder/Note".data) ord = some ("folder/Note.md".data)) := by
  refine ⟨?_, ?_, by decide, by decide, ?_⟩
  · intro m hm
    rw [find_note_path] at hm
    exact ⟨List.mem_of_find?_eq_some hm, List.find?_some hm⟩
  · intro src hnone
    simp [resolveLink, hnone]
  · intro hmem huniq
    constructor
    · cases hf : find_note_path ("Note".data) ord with
      | none =>
        rw [find_note_path, List.find?_eq_none] at hf
        exact absurd
          (by decide : matchesNote ("Note".data) ("folder/Note.md".data) = true)
          (hf _ hmem)
      | some m =>
        have hm := List.find?_some hf
        have hmm := List.mem_of_find?_eq_some hf
        rw [huniq m hmm hm]
    · cases hf : find_note_path ("folder/Note".data) ord with
      | none =>
        rw [find_note_path, List.find?_eq_none] at hf
        exact absurd
          (by decide :
            matchesNote ("folder/Note".data) ("folder/Note.md".data) = true)
          (hf _ hmem)
      | some m =>
        have hm := List.find?_some hf
        have hmm := List.mem_of_find?_eq_some hf
        rw [huniq m hmm (matchesNote_folder_imp m hm)]

/-- C8 witness: in the singleton vault the two link spellings resolve to the
stored path and a missing target is reported raw and unresolved. -/
theorem C8_witness :
    find_note_path ("Note".data) [("folder/Note.md".data)] =
      some ("folder/Note.md".data) ∧
    find_note_path ("folder/Note".data) [("folder/Note.md".data)] =
      some ("folder/Note.md".data) ∧
    resolveLink [("folder/Note.md".data)] ("Src.md".data) ("Missing".data) =
      ⟨("Src.md".data), ("Missing".data), false⟩ :=
  have h := (C8_resolution [("folder/Note.md".data)] ("Note".data)).2.2.2.2
    (by decide) (by decide)
  ⟨h.1, h.2, (C8_resolution [("folder/Note.md".data)] ("Missing".data)).2.1
    ("Src.md".data) rfl⟩

/-! ### Consecutive deduplication and insertion into the sorted tag table -/

theorem mem_dedupConsec : ∀ (l : List Str) (a : Str),
    a ∈ dedupConsec l ↔ a ∈ l := by
  intro l
  induction l with
  | nil => intro a; simp [dedupConsec]
  | cons x xs ih =>
    intro a
    cases xs with
    | nil => simp [dedupConsec]
    | cons y ys =>
      simp only [dedupConsec]
      split
      case isTrue h =>
        subst h
        rw [ih a]
        simp only [List.mem_cons]
        tauto
      case isFalse h =>
        simp only [List.mem_cons, ih a]

theorem pairwise_lt_dedupConsec : ∀ (l : List Str),
    l.Pairwise (· ≤ ·) → (dedupConsec l).Pairwise (· < ·) := by
  intro l
  induction l with
  | nil => intro _; simp [dedupConsec]
  | cons x xs ih =>
    intro hp
    cases xs with
    | nil => simp [dedupConsec]
    | cons y ys =>
      simp only [dedupConsec]
      have hp' := List.Pairwise.of_cons hp
      split
      case isTrue h => exact ih hp'
      case isFalse h =>
        refine List.Pairwise.cons ?_ (ih hp')
        intro b hb
        rw [mem_dedupConsec] at hb
        have hxb : x ≤ b := (List.pairwise_cons.mp hp).1 b hb
        rcases List.mem_cons.mp hb with rfl | hbys
        · exact lt_of_le_of_ne hxb h
        · have hyb : y ≤ b := (List.pairwise_cons.mp hp').1 b hbys
          have hxy : x ≤ y :=
            (List.pairwise_cons.mp hp).1 y (List.mem_cons_self y ys)
          exact lt_of_lt_of_le (lt_of_le_of_ne hxy h) hyb

theorem insertTag_fst : ∀ (m : List (Str × Nat)) (t : Str) (y : Str × Nat),
    y ∈ insertTag t m → y.1 = t ∨ ∃ x ∈ m, y.1 = x.1 := by
  intro m
  induction m with
  | nil =>
    intro t y hy
    simp only [insertTag, List.mem_singleton] at hy
    left
    rw [hy]
  | cons p rest ih =>
    intro t y hy
    obtain ⟨k, c⟩ := p
    simp only [insertTag] at hy
    split at hy
    case isTrue h =>
      rcases List.mem_cons.mp hy with rfl | hmem
      · right; exact ⟨(k, c), List.mem_cons_self _ _, rfl⟩
      · right; exact ⟨y, List.mem_cons_of_mem _ hmem, rfl⟩
    case isFalse h =>
      split at hy
      case isTrue h2 =>
        rcases List.mem_cons.mp hy with rfl | hmem
        · left; rfl
        · right; exact ⟨y, hmem, rfl⟩
      case isFalse h2 =>
        rcases List.mem_cons.mp hy with rfl | hmem
        · right; exact ⟨(k, c), List.mem_cons_self _ _, rfl⟩
        · rcases ih t y hmem with h3 | ⟨x, hx, h4⟩
          · left; exact h3
          · right; exact ⟨x, List.mem_cons_of_mem _ hx, h4⟩

theorem pairwise_insertTag : ∀ (m : List (Str × Nat)) (t : Str),
    m.Pairwise (fun a b => a.1 < b.1) →
    (insertTag t m).Pairwise (fun a b => a.1 < b.1) := by
  intro m
  induction m with
  | nil => intro t _; simp [insertTag]
  | cons p rest ih =>
    intro t hp
    obtain ⟨k, c⟩ := p
    rw [List.pairwise_cons] at hp
    simp only [insertTag]
    split
    case isTrue h =>
      rw [List.pairwise_cons]
      exact ⟨hp.1, hp.2⟩
    case isFalse h =>
      split
      case isTrue h2 =>
        rw [List.pairwise_cons]
        refine ⟨?_, ?_⟩
        · intro b hb
          rcases List.mem_cons.mp hb with rfl | hbm
          · exact h2
          · exact lt_trans h2 (hp.1 b hbm)
        · rw [List.pairwise_cons]
          exact ⟨hp.1, hp.2⟩
      case isFalse h2 =>
        rw [List.pairwise_cons]
        refine ⟨?_, ih t hp.2⟩
        intro b hb
        rcases insertTag_fst rest t b hb with h3 | ⟨x, hx, h4⟩
        · rw [h3]
          rcases lt_trichotomy t k with hlt | heq | hgt
          · exact absurd hlt h2
          · exact absurd heq h
          · exact hgt
        · rw [h4]; exact hp.1 x hx

theorem pairwise_tally : ∀ (ts : List Str) (m : List (Str × Nat)),
    m.Pairwise (fun a b => a.1 < b.1) →
    (ts.foldl (fun m t => insertTag t m) m).Pairwise (fun a b => a.1 < b.1) := by
  intro ts
  induction ts with
  | nil => intro m hm; exact hm
  | cons t ts ih => intro m hm; exact ih _ (pairwise_insertTag m t hm)

/-- The tag table is strictly sorted by key, hence its keys are distinct. -/
theorem pairwise_tagsOf (v : Vault) :
    (tagsOf v).Pairwise (fun a b => a.1 < b.1) := by
  rw [tagsOf]
  generalize walkFiles v = fs
  have main : ∀ (fs : List MdFile) (m : List (Str × Nat)),
      m.Pairwise (fun a b => a.1 < b.1) →
      (fs.foldl (fun m f =>
        match f.content with
        | some c => (extract_tags_from_file c).foldl (fun m t => insertTag t m) m
        | none => m) m).Pairwise (fun a b => a.1 < b.1) := by
    intro fs
    induction fs with
    | nil => intro m hm; exact hm
    | cons f fs ih =>
      intro m hm
      obtain ⟨p, co, mo⟩ := f
      cases co with
      | none => exact ih m hm
      | some c => exact ih _ (pairwise_tally _ m hm)
  exact main fs [] List.Pairwise.nil

/-- A vault with two notes linking (one of them twice) to a third. -/
def exVaultBack : Vault :=
  ⟨true, [⟨("A.md".data), some ("[[B]] [[B]]".data), ("unknown".data)⟩,
          ⟨("B.md".data), some ("".data), ("unknown".data)⟩,
          ⟨("C.md".data), some ("[[B]]".data), ("unknown".data)⟩]⟩

/-- The end-to-end scenario vault of the specification. -/
def exVaultStats : Vault :=
  ⟨true, [⟨("A.md".data), some ("#work\n[[B]]".data), ("unknown".data)⟩,
          ⟨("B.md".data), some ("---\ntags: [home]\n---\ncontent".data),
            ("unknown".data)⟩,
          ⟨("C.md".data), some ("".data), ("unknown".data)⟩]⟩

/-- C9.  find_backlinks returns exactly the sources of the links whose
target matches the query under the symmetric normalization-and-suffix
policy, sorted lexicographically and with repeated sources collapsed: the
result is strictly sorted and a source appears in it precisely when some
collected link of that source matches. -/
theorem C9_backlinks (ord : List Str) (target : Str) (v : Vault)
    (bl : List Str) (hbl : find_backlinks ord target v = .ok bl)
    (links : List LinkInfo) (notes : List Str)
    (hcl : collect_all_links ord v = .ok (links, notes)) :
    (∀ src, src ∈ bl ↔ ∃ l ∈ links, l.source = src ∧
      backMatches (normalize_path target) (normalize_path l.target) = true) ∧
    bl.Pairwise (· < ·) := by
  rw [collect_all_links_eq] at hcl
  injection hcl with h1
  injection h1 with hl hn
  subst hl; subst hn
  rw [find_backlinks_eq] at hbl
  injection hbl with h2
  subst h2
  constructor
  · intro src
    rw [backlinksOf, mem_dedupConsec, List.mem_insertionSort, List.mem_map]
    constructor
    · rintro ⟨l, hlf, rfl⟩
      rw [List.mem_filter] at hlf
      exact ⟨l, hlf.1, rfl, hlf.2⟩
    · rintro ⟨l, hml, hsrc, hmatch⟩
      exact ⟨l, List.mem_filter.mpr ⟨hml, hmatch⟩, hsrc⟩
  · rw [backlinksOf]
    exact pairwise_lt_dedupConsec _ (List.sorted_insertionSort (· ≤ ·) _)

/-- C9 witness: repeated links from A.md and a link from C.md to B.md
produce the deduplicated sorted backlink list. -/
theorem C9_witness :
    find_backlinks (allNotesList exVaultBack) ("B.md".data) exVaultBack =
      .ok [("A.md".data), ("C.md".data)] ∧
    ([("A.md".data), ("C.md".data)] : List Str).Pairwise (· < ·) :=
  ⟨rfl, (C9_backlinks (allNotesList exVaultBack) ("B.md".data) exVaultBack
    [("A.md".data), ("C.md".data)] rfl
    [⟨("A.md".data), ("B.md".data), true⟩, ⟨("A.md".data), ("B.md".data), true⟩,
     ⟨("C.md".data), ("B.md".data), true⟩]
    [("A.md".data), ("B.md".data), ("C.md".data)] rfl).2⟩

/-- C10.  The stats record satisfies the claimed invariants: broken links
never exceed total links, orphans never exceed total notes, and total_tags
is the number of distinct tag keys of the frequency table (whose keys are
indeed pairwise distinct), not the sum of the counts. -/
theorem C10_stats (v : Vault) (ord1 ord2 : List Str)
    (h2 : ord2.Perm (allNotesList v)) (st : StatsOutput)
    (hst : calculate_stats ord1 ord2 v = .ok st)
    (tc : List (Str × Nat)) (htc : collect_all_tags v = .ok tc) :
    st.broken_links ≤ st.total_links ∧
    st.orphaned_notes ≤ st.total_notes ∧
    st.total_tags = tc.length ∧ (tc.map Prod.fst).Nodup := by
  rw [calculate_stats_eq] at hst
  injection hst with h1
  subst h1
  rw [collect_all_tags_eq] at htc
  injection htc with h3
  subst h3
  refine ⟨List.length_filter_le _ _, ?_, rfl, ?_⟩
  · calc (orphansOf ord2 v).length ≤ ord2.length := List.length_filter_le _ _
      _ = (allNotesList v).length := h2.length_eq
  · have hpw := pairwise_tagsOf v
    have h4 : List.Pairwise (fun a b : Str × Nat => a.1 ≠ b.1) (tagsOf v) :=
      hpw.imp (fun h => ne_of_lt h)
    exact List.pairwise_map.mpr h4

/-- C10 witness: the end-to-end scenario vault has stats 3 notes, 2 tags,
1 link, 0 broken, 1 orphan, and the invariants hold there. -/
theorem C10_witness :
    (0 : Nat) ≤ 1 ∧ (1 : Nat) ≤ 3 ∧ (2 : Nat) = 2 ∧
    (([(("home".data), 1), (("work".data), 1)] : List (Str × Nat)).map
      Prod.fst).Nodup :=
  have h := C10_stats exVaultStats (allNotesList exVaultStats)
    (allNotesList exVaultStats) (by decide) ⟨3, 2, 1, 0, 1⟩ rfl
    [(("home".data), 1), (("work".data), 1)] rfl
  ⟨h.1, h.2.1, h.2.2.1, h.2.2.2⟩
